import Mathlib

/-!
Verification of the HS-code processing module `src/data/scraper.py`.

Strings are modelled as `List Char`.  Python string primitives used by the
module (`str.strip`, `str.replace`, `str.split`, `str.lower`, the regular
expressions of `validate_hs_code` and `extract_keywords`) are embedded as
executable functions over `List Char`, at the ASCII level: the ASCII
whitespace characters stand for Python whitespace and ASCII digits for the
regex digit class.
-/

namespace HsScraper

/-- ASCII decimal digit, the regex digit class of the module. -/
def isDigitChar (c : Char) : Bool :=
  48 ≤ c.toNat && c.toNat ≤ 57

/-- ASCII whitespace: space, tab, newline, carriage return, vertical tab,
form feed.  Models the character class stripped by Python `str.strip()`,
split on by `str.split()`, and matched by the regex class of whitespace. -/
def pyIsSpace (c : Char) : Bool :=
  c.toNat = 32 || c.toNat = 9 || c.toNat = 10 || c.toNat = 13 ||
    c.toNat = 11 || c.toNat = 12

/-- Python `s.strip()`: remove leading and trailing whitespace. -/
def pyStrip (l : List Char) : List Char :=
  ((l.dropWhile pyIsSpace).reverse.dropWhile pyIsSpace).reverse

/-- Python `s.replace(' ', '')`: remove every space character. -/
def removeSpaces (l : List Char) : List Char :=
  l.filter (fun c => c ≠ ' ')

/-- Python `s.replace('.', '')`: remove every dot character. -/
def removeDots (l : List Char) : List Char :=
  l.filter (fun c => c ≠ '.')

/-- At most `n` groups, each a dot followed by exactly two digits: the
suffix `(\.\d\x7b2\x7d)?` repeated `n` times of the validation pattern. -/
def isDotGroups : Nat → List Char → Bool
  | _, [] => true
  | 0, _ :: _ => false
  | _ + 1, [_] => false
  | _ + 1, [_, _] => false
  | n + 1, c :: a :: b :: rest =>
      c = '.' && isDigitChar a && isDigitChar b && isDotGroups n rest

/-- The whole validation pattern of the module,
four digits followed by up to three dot-digit-digit groups. -/
def isHsBody (l : List Char) : Bool :=
  match l with
  | d1 :: d2 :: d3 :: d4 :: rest =>
      isDigitChar d1 && isDigitChar d2 && isDigitChar d3 && isDigitChar d4 &&
        isDotGroups 3 rest
  | _ => false

/-- Embedding of `validate_hs_code` from `src/data/scraper.py`: reject the empty string,
strip surrounding whitespace, remove internal spaces, then match the
pattern of four digits plus up to three dot-digit-digit groups. -/
def validate_hs_code (code : List Char) : Bool :=
  if code.isEmpty then false
  else isHsBody (removeSpaces (pyStrip code))

/-- The stopword set `STOPWORDS` of the module, verbatim. -/
def STOPWORDS : List (List Char) :=
  ["the".data, "a".data, "an".data, "and".data, "or".data, "but".data,
   "in".data, "on".data, "at".data, "to".data, "for".data,
   "of".data, "with".data, "is".data, "are".data, "was".data, "were".data,
   "be".data, "been".data, "being".data,
   "this".data, "that".data, "these".data, "those".data, "it".data,
   "its".data, "as".data, "by".data, "from".data,
   "has".data, "have".data, "had".data, "will".data, "would".data,
   "can".data, "could".data, "should".data,
   "used".data, "use".data, "etc".data, "e.g".data, "i.e".data]

/-- ASCII lowercase letter or digit: the character class kept by the
substitution step of `extract_keywords`. -/
def isKeptChar (c : Char) : Bool :=
  (97 ≤ c.toNat && c.toNat ≤ 122) || (48 ≤ c.toNat && c.toNat ≤ 57)

/-- Python `str.lower()` on ASCII: map uppercase letters to lowercase. -/
def pyLowerChar (c : Char) : Char :=
  if 65 ≤ c.toNat && c.toNat ≤ 90 then Char.ofNat (c.toNat + 32) else c

/-- The substitution step of `extract_keywords`: every character outside
lowercase alphanumerics and whitespace becomes a single space. -/
def pySubToSpace (l : List Char) : List Char :=
  l.map (fun c => if isKeptChar c || pyIsSpace c then c else ' ')

/-- Worker for `pySplit`, structurally recursive on a fuel bound: skip a
whitespace head, otherwise emit the maximal non-whitespace run starting at
the head and continue after it.  Any fuel at least the list length gives
the same result. -/
def pySplitGo : Nat → List Char → List (List Char)
  | _, [] => []
  | 0, _ :: _ => []
  | n + 1, c :: rest =>
    if pyIsSpace c then pySplitGo n rest
    else (c :: rest.takeWhile (fun x => !pyIsSpace x)) ::
      pySplitGo n (rest.dropWhile (fun x => !pyIsSpace x))

/-- Python `str.split()` with no argument: split on whitespace runs,
dropping empty tokens. -/
def pySplit (l : List Char) : List (List Char) :=
  pySplitGo l.length l

/-- The token filter of `extract_keywords`:
keep a word when it is not a stopword and has length at least 3. -/
def keepWord (w : List Char) : Bool :=
  decide (w ∉ STOPWORDS) && decide (3 ≤ w.length)

/-- The first-occurrence deduplication loop of `extract_keywords`,
with the `seen` set made explicit. -/
def uniqueKeep (seen : List (List Char)) : List (List Char) → List (List Char)
  | [] => []
  | w :: ws => if w ∈ seen then uniqueKeep seen ws else w :: uniqueKeep (w :: seen) ws

/-- A Python value passed to `extract_keywords`: `None`, a float `NaN`
(as produced by pandas for missing cells), or a string. -/
inductive PyText where
  | pnone : PyText
  | pnan : PyText
  | pstr : List Char → PyText
deriving DecidableEq

/-- The pipeline of `extract_keywords` on an actual string:
lowercase, substitute punctuation by spaces, split, filter stopwords and
short words, deduplicate keeping first occurrences, truncate. -/
def extractBody (s : List Char) (max_keywords : Nat) : List (List Char) :=
  let text := pySubToSpace (s.map pyLowerChar)
  let words := pySplit text
  let keywords := words.filter keepWord
  (uniqueKeep [] keywords).take max_keywords

/-- Embedding of `extract_keywords` from `src/data/scraper.py`.  The guard
`if not description or pd.isna(description)` returns `[]` for `None`,
`NaN` and the empty string; otherwise the pipeline runs.  The module
calls it with `max_keywords = 15`. -/
def extract_keywords (description : PyText) (max_keywords : Nat) : List (List Char) :=
  match description with
  | .pnone => []
  | .pnan => []
  | .pstr s => if s.isEmpty then [] else extractBody s max_keywords

/-- Python `' '.join(words)`. -/
def joinSpace : List (List Char) → List Char
  | [] => []
  | [w] => w
  | w :: v :: vs => w ++ ' ' :: joinSpace (v :: vs)

/-- Python `s.split('.')`. -/
def splitDot : List Char → List (List Char)
  | [] => [[]]
  | c :: rest =>
    if c = '.' then [] :: splitDot rest
    else
      match splitDot rest with
      | [] => [[c]]
      | p :: ps => (c :: p) :: ps

/-- Python `'.'.join(parts)`. -/
def joinDot : List (List Char) → List Char
  | [] => []
  | [p] => p
  | p :: ps => p ++ '.' :: joinDot ps

/-- Embedding of `determine_parent_code` from `src/data/scraper.py`: remove spaces; if a
dot is present (so the split has more than one part) drop the last
dot-delimited segment; otherwise remove dots and return `none` for at most
4 characters, else the first 4 characters. -/
def determine_parent_code (code : List Char) : Option (List Char) :=
  let clean_code := removeSpaces code
  if '.' ∈ clean_code ∧ 1 < (splitDot clean_code).length then
    some (joinDot (splitDot clean_code).dropLast)
  else
    let clean_digits := removeDots clean_code
    if clean_digits.length ≤ 4 then none
    else some (clean_digits.take 4)

/-- Iterated application of `determine_parent_code` under `Option.bind`:
`parentIter n x` is the state after `n` further applications from `x`. -/
def parentIter : Nat → Option (List Char) → Option (List Char)
  | 0, x => x
  | n + 1, x => parentIter n (x.bind determine_parent_code)

/-- The result of `parse_hs_code`. -/
structure ParsedCode where
  chapter : List Char
  heading : List Char
  subheading : List Char
deriving DecidableEq

/-- Embedding of `parse_hs_code` from `src/data/scraper.py`: remove dots then spaces,
take the first 2 characters as chapter and the first 4 as heading; the
subheading is the first 6 characters, re-dotted after position 4 when six
characters are available, otherwise it equals the heading. -/
def parse_hs_code (code : List Char) : ParsedCode :=
  let clean_code := removeSpaces (removeDots code)
  let chapter := if 2 ≤ clean_code.length then clean_code.take 2 else clean_code
  let heading := if 4 ≤ clean_code.length then clean_code.take 4 else clean_code
  let subheading0 := if 6 ≤ clean_code.length then clean_code.take 6 else heading
  let subheading :=
    if 6 ≤ subheading0.length then
      subheading0.take 4 ++ '.' :: (subheading0.drop 4).take 2
    else subheading0
  ⟨chapter, heading, subheading⟩

/-- An input row of the CSV table.  The named columns used by the builder
are optional strings (`none` models a missing or NaN cell); `extra` holds
any further free-form columns of the row as key-value pairs. -/
structure Row where
  product_name : Option (List Char)
  product_description : Option (List Char)
  material : Option (List Char)
  function : Option (List Char)
  hs_code : Option (List Char)
  hs_description : Option (List Char)
  extra : List (List Char × List Char)

/-- A value of an output-record field. -/
inductive FieldVal where
  | vstr : List Char → FieldVal
  | vlist : List (List Char) → FieldVal
  | voptStr : Option (List Char) → FieldVal
  | vdict : List (List Char × List Char) → FieldVal
deriving DecidableEq

/-- Python `str(row.get(col, ''))` for a string-valued optional cell. -/
def strOf (o : Option (List Char)) : List Char :=
  o.getD []

/-- The code field as the builder reads it:
`str(row.get('hs_code', '')).strip()`. -/
def rowHsCode (row : Row) : List Char :=
  pyStrip (strOf row.hs_code)

/-- Embedding of `extract_common_products` from `src/data/scraper.py`: when the product
name is a non-empty string, the lowercased, stripped name is the single
common product; the description is unused. -/
def extract_common_products (description : List Char) (product_name : List Char) :
    List (List Char) :=
  if product_name.isEmpty then [] else [pyStrip (product_name.map pyLowerChar)]

/-- Python `' - '.join(parts)`. -/
def joinDash : List (List Char) → List Char
  | [] => []
  | [p] => p
  | p :: ps => p ++ " - ".data ++ joinDash ps

/-- The full-description assembly of `structure_for_db`: strip and join the
official and free-text descriptions that are present, with a placeholder
when both are missing. -/
def full_description (row : Row) : List Char :=
  let parts :=
    (match row.hs_description with
     | some d => [pyStrip d]
     | none => []) ++
    (match row.product_description with
     | some d => [pyStrip d]
     | none => [])
  if parts.isEmpty then "No description".data else joinDash parts

/-- The text handed to the keyword extractor by `structure_for_db`:
description, material and function joined by single spaces. -/
def keywordsInput (row : Row) : List Char :=
  strOf row.product_description ++ ' ' :: strOf row.material ++ ' ' :: strOf row.function

/-- The record literal built by `structure_for_db` for one valid row,
with its nine keys in source order. -/
def buildRecord (row : Row) (country_code : List Char) :
    List (List Char × FieldVal) :=
  let hs_code := rowHsCode row
  let code_parts := parse_hs_code hs_code
  [("code".data, .vstr hs_code),
   ("chapter".data, .vstr code_parts.chapter),
   ("heading".data, .vstr code_parts.heading),
   ("subheading".data, .vstr code_parts.subheading),
   ("countryCode".data, .vstr country_code),
   ("description".data, .vstr (full_description row)),
   ("keywords".data, .vlist (extract_keywords (.pstr (keywordsInput row)) 15)),
   ("commonProducts".data,
     .vlist (extract_common_products (strOf row.product_description) (strOf row.product_name))),
   ("parentCode".data, .voptStr (determine_parent_code hs_code))]

/-- Embedding of `structure_for_db` from `src/data/scraper.py`, restricted to its data
content: the ordered list of built records together with the count of
rows skipped because their code failed validation. -/
def structure_for_db (rows : List Row) (country_code : List Char) :
    List (List (List Char × FieldVal)) × Nat :=
  match rows with
  | [] => ([], 0)
  | row :: rest =>
    let prev := structure_for_db rest country_code
    if validate_hs_code (rowHsCode row) then
      (buildRecord row country_code :: prev.1, prev.2)
    else
      (prev.1, prev.2 + 1)

/-- The concatenation of dot-digit-digit groups. -/
def flatGroups : List (Char × Char) → List Char
  | [] => []
  | (a, b) :: gs => '.' :: a :: b :: flatGroups gs

/-- A concrete row with a valid code and one free-form extra column. -/
def sampleRow3 : Row :=
  { product_name := some "Brake Pad".data,
    product_description := none,
    material := none,
    function := none,
    hs_code := some "8708.30.10".data,
    hs_description := none,
    extra := [("reasoning".data, "vehicle part".data)] }

/-! ### Sanity examples evaluating the embedded functions -/

example : validate_hs_code "8708".data = true := by decide
example : validate_hs_code "8708.30".data = true := by decide
example : validate_hs_code "8708.30.10".data = true := by decide
example : validate_hs_code "8708.30.10.00".data = true := by decide
example : validate_hs_code "870".data = false := by decide
example : validate_hs_code "".data = false := by decide
example : validate_hs_code "870830".data = false := by decide
example : validate_hs_code "87.0830".data = false := by decide
example : validate_hs_code " 8708.30 ".data = true := by decide
example : validate_hs_code "87 08.30".data = true := by decide

example : extract_keywords (.pstr "The Car Engine 123mm".data) 15 =
    ["car".data, "engine".data, "123mm".data] := by decide
example : extract_keywords (.pstr "123".data) 15 = ["123".data] := by decide
example : extract_keywords (.pstr "Rubber brake pad for car".data) 15 =
    ["rubber".data, "brake".data, "pad".data, "car".data] := by decide
example : extract_keywords (.pstr "".data) 15 = [] := by decide

example : determine_parent_code "8708.30.10".data = some "8708.30".data := by decide
example : determine_parent_code "8708.30".data = some "8708".data := by decide
example : determine_parent_code "8708".data = none := by decide
example : determine_parent_code "870830".data = some "8708".data := by decide
example : parentIter 3 (some "8708.30.10.00".data) = some "8708".data := by decide
example : parentIter 4 (some "8708.30.10.00".data) = none := by decide
example : parentIter 5 (some "\t8708.30.10.00".data) = none := by decide
example : parentIter 4 (some "\t8708.30.10.00".data) = some "\t870".data := by decide

example : parse_hs_code "8708.30.10".data =
    ⟨"87".data, "8708".data, "8708.30".data⟩ := by decide
example : parse_hs_code "8708".data =
    ⟨"87".data, "8708".data, "8708".data⟩ := by decide

/-! ### Shape of accepted codes -/

theorem isDigitChar_ne_dot {c : Char} (h : isDigitChar c = true) : c ≠ '.' := by
  intro hc
  subst hc
  simp [isDigitChar] at h

theorem isDigitChar_ne_space {c : Char} (h : isDigitChar c = true) : c ≠ ' ' := by
  intro hc
  subst hc
  simp [isDigitChar] at h

theorem pyIsSpace_ne_dot {c : Char} (h : pyIsSpace c = true) : c ≠ '.' := by
  intro hc
  subst hc
  simp [pyIsSpace] at h

theorem isDotGroups_shape :
    ∀ (n : Nat) (l : List Char), isDotGroups n l = true →
      ∃ gs, l = flatGroups gs ∧ gs.length ≤ n ∧
        ∀ p ∈ gs, isDigitChar p.1 = true ∧ isDigitChar p.2 = true := by
  intro n
  induction n with
  | zero =>
    intro l h
    cases l with
    | nil => exact ⟨[], rfl, by simp, by simp⟩
    | cons c rest => simp [isDotGroups] at h
  | succ n ih =>
    intro l h
    match l with
    | [] => exact ⟨[], rfl, by simp, by simp⟩
    | [_] => simp [isDotGroups] at h
    | [_, _] => simp [isDotGroups] at h
    | c :: a :: b :: rest =>
      simp only [isDotGroups, Bool.and_eq_true, decide_eq_true_eq] at h
      obtain ⟨⟨⟨hc, ha⟩, hb⟩, hrest⟩ := h
      obtain ⟨gs, hgs, hlen, hdig⟩ := ih rest hrest
      refine ⟨(a, b) :: gs, ?_, ?_, ?_⟩
      · simp [flatGroups, hc, hgs]
      · simpa using Nat.succ_le_succ hlen
      · intro p hp
        rcases List.mem_cons.mp hp with h1 | h2
        · subst h1; exact ⟨ha, hb⟩
        · exact hdig p h2

theorem isDotGroups_of_shape :
    ∀ (gs : List (Char × Char)) (n : Nat), gs.length ≤ n →
      (∀ p ∈ gs, isDigitChar p.1 = true ∧ isDigitChar p.2 = true) →
      isDotGroups n (flatGroups gs) = true := by
  intro gs
  induction gs with
  | nil =>
    intro n _ _
    cases n <;> simp [flatGroups, isDotGroups]
  | cons g gs ih =>
    intro n hlen hdig
    obtain ⟨a, b⟩ := g
    cases n with
    | zero => simp at hlen
    | succ n =>
      have ha := (hdig (a, b) (by simp)).1
      have hb := (hdig (a, b) (by simp)).2
      have hrest := ih n (by simpa using hlen) (fun p hp => hdig p (by simp [hp]))
      simp [flatGroups, isDotGroups, ha, hb, hrest]

theorem isHsBody_shape (l : List Char) :
    isHsBody l = true ↔
      ∃ d1 d2 d3 d4 gs,
        l = d1 :: d2 :: d3 :: d4 :: flatGroups gs ∧
        (isDigitChar d1 = true ∧ isDigitChar d2 = true ∧
         isDigitChar d3 = true ∧ isDigitChar d4 = true) ∧
        gs.length ≤ 3 ∧
        ∀ p ∈ gs, isDigitChar p.1 = true ∧ isDigitChar p.2 = true := by
  constructor
  · intro h
    match l with
    | [] => simp [isHsBody] at h
    | [_] => simp [isHsBody] at h
    | [_, _] => simp [isHsBody] at h
    | [_, _, _] => simp [isHsBody] at h
    | d1 :: d2 :: d3 :: d4 :: rest =>
      simp only [isHsBody, Bool.and_eq_true] at h
      obtain ⟨⟨⟨⟨h1, h2⟩, h3⟩, h4⟩, hrest⟩ := h
      obtain ⟨gs, hgs, hlen, hdig⟩ := isDotGroups_shape 3 rest hrest
      exact ⟨d1, d2, d3, d4, gs, by rw [hgs], ⟨h1, h2, h3, h4⟩, hlen, hdig⟩
  · rintro ⟨d1, d2, d3, d4, gs, hl, ⟨h1, h2, h3, h4⟩, hlen, hdig⟩
    subst hl
    simp [isHsBody, h1, h2, h3, h4, isDotGroups_of_shape gs 3 hlen hdig]

theorem strip_decomp (s : List Char) :
    ∃ A B, s = A ++ pyStrip s ++ B ∧
      (∀ c ∈ A, pyIsSpace c = true) ∧ (∀ c ∈ B, pyIsSpace c = true) := by
  refine ⟨s.takeWhile pyIsSpace,
    ((s.dropWhile pyIsSpace).reverse.takeWhile pyIsSpace).reverse, ?_, ?_, ?_⟩
  · conv_lhs => rw [← List.takeWhile_append_dropWhile (p := pyIsSpace) (l := s)]
    rw [List.append_assoc]
    congr 1
    conv_lhs => rw [← List.reverse_reverse (s.dropWhile pyIsSpace)]
    conv_lhs =>
      rw [← List.takeWhile_append_dropWhile (p := pyIsSpace)
            (l := (s.dropWhile pyIsSpace).reverse)]
    rw [List.reverse_append]
    rfl
  · intro c hc
    exact List.mem_takeWhile_imp hc
  · intro c hc
    exact List.mem_takeWhile_imp (List.mem_reverse.mp hc)

/-- Acceptance characterization of `validate_hs_code`: a string passes
exactly when, after stripping surrounding whitespace and removing internal
spaces, it is four digits followed by at most three dot-digit-digit
groups. -/
theorem validate_shape (s : List Char) :
    validate_hs_code s = true ↔
      ∃ d1 d2 d3 d4 gs,
        removeSpaces (pyStrip s) = d1 :: d2 :: d3 :: d4 :: flatGroups gs ∧
        (isDigitChar d1 = true ∧ isDigitChar d2 = true ∧
         isDigitChar d3 = true ∧ isDigitChar d4 = true) ∧
        gs.length ≤ 3 ∧
        ∀ p ∈ gs, isDigitChar p.1 = true ∧ isDigitChar p.2 = true := by
  constructor
  · intro h
    unfold validate_hs_code at h
    split at h
    · exact absurd h (by simp)
    · exact (isHsBody_shape _).mp h
  · intro hsh
    have hne : s ≠ [] := by
      intro hnil
      subst hnil
      obtain ⟨d1, d2, d3, d4, gs, heq, _⟩ := hsh
      simp [pyStrip, removeSpaces] at heq
    unfold validate_hs_code
    rw [if_neg (by simpa using hne)]
    exact (isHsBody_shape _).mpr hsh

theorem length_removeDots_flatGroups (gs : List (Char × Char))
    (hdig : ∀ p ∈ gs, isDigitChar p.1 = true ∧ isDigitChar p.2 = true) :
    (removeDots (flatGroups gs)).length = 2 * gs.length := by
  induction gs with
  | nil => simp [flatGroups, removeDots]
  | cons g gs ih =>
    obtain ⟨a, b⟩ := g
    have ha := isDigitChar_ne_dot (hdig (a, b) (by simp)).1
    have hb := isDigitChar_ne_dot (hdig (a, b) (by simp)).2
    have ih2 := ih (fun p hp => hdig p (by simp [hp]))
    simp only [flatGroups, removeDots, List.filter_cons, ne_eq, decide_not] at ih2 ⊢
    simp only [ha, hb, decide_eq_true_eq, if_neg, decide_eq_false_iff_not, not_false_eq_true,
      Bool.not_false, if_true, List.length_cons, if_pos, decide_True]
    simp [ha, hb]
    omega

/-! ### Split and join on dots -/

theorem splitDot_ne_nil (l : List Char) : splitDot l ≠ [] := by
  induction l with
  | nil => simp [splitDot]
  | cons c rest ih =>
    simp only [splitDot]
    split
    · simp
    · cases h : splitDot rest with
      | nil => simp
      | cons p ps => simp [h]

theorem splitDot_no_dot {v : List Char} (hv : '.' ∉ v) : splitDot v = [v] := by
  induction v with
  | nil => simp [splitDot]
  | cons c rest ih =>
    have hc : c ≠ '.' := fun h => hv (by simp [h])
    have hrest : splitDot rest = [rest] := ih (fun h => hv (by simp [h]))
    simp [splitDot, hc, hrest]

theorem splitDot_append_dot {u v : List Char} (hv : '.' ∉ v) :
    splitDot (u ++ '.' :: v) = splitDot u ++ [v] := by
  induction u with
  | nil => simp [splitDot, splitDot_no_dot hv]
  | cons c u ih =>
    by_cases hc : c = '.'
    · subst hc
      simp [splitDot, ih]
    · cases h : splitDot u with
      | nil => exact absurd h (splitDot_ne_nil u)
      | cons p ps =>
        simp only [List.cons_append, splitDot, hc, if_false, h, List.append_eq]
        rw [ih, h]
        simp

theorem joinDot_splitDot (u : List Char) : joinDot (splitDot u) = u := by
  induction u with
  | nil => simp [splitDot, joinDot]
  | cons c u ih =>
    by_cases hc : c = '.'
    · subst hc
      cases h : splitDot u with
      | nil => exact absurd h (splitDot_ne_nil u)
      | cons p ps =>
        rw [h] at ih
        simp [splitDot, h, joinDot, ih]
    · cases h : splitDot u with
      | nil => exact absurd h (splitDot_ne_nil u)
      | cons p ps =>
        rw [h] at ih
        cases ps with
        | nil =>
          simp only [joinDot] at ih
          simp [splitDot, hc, h, joinDot, ih]
        | cons q qs =>
          simp only [joinDot] at ih ⊢
          simp [splitDot, hc, h, joinDot, ih]

/-! ### Structure of the parent resolver -/

theorem removeSpaces_eq_self {l : List Char} (h : ' ' ∉ l) : removeSpaces l = l :=
  List.filter_eq_self.mpr (fun a ha => by
    simp only [ne_eq, decide_eq_true_eq]
    exact fun he => h (he ▸ ha))

theorem removeDots_eq_self {l : List Char} (h : '.' ∉ l) : removeDots l = l :=
  List.filter_eq_self.mpr (fun a ha => by
    simp only [ne_eq, decide_eq_true_eq]
    exact fun he => h (he ▸ ha))

theorem determine_parent_dotted {u v : List Char}
    (hu : ' ' ∉ u) (hv : ' ' ∉ v) (hvd : '.' ∉ v) :
    determine_parent_code (u ++ '.' :: v) = some u := by
  have hclean : removeSpaces (u ++ '.' :: v) = u ++ '.' :: v := by
    apply removeSpaces_eq_self
    intro hmem
    rcases List.mem_append.mp hmem with h1 | h2
    · exact hu h1
    · rcases List.mem_cons.mp h2 with h3 | h4
      · exact absurd h3.symm (by decide)
      · exact hv h4
  have hsplit : splitDot (u ++ '.' :: v) = splitDot u ++ [v] := splitDot_append_dot hvd
  have hlen : 1 < (splitDot (u ++ '.' :: v)).length := by
    rw [hsplit, List.length_append]
    have := List.length_pos.mpr (splitDot_ne_nil u)
    simp only [List.length_cons, List.length_nil]
    omega
  have hmem : '.' ∈ u ++ '.' :: v := List.mem_append.mpr (Or.inr (by simp))
  unfold determine_parent_code
  rw [hclean, if_pos ⟨hmem, hlen⟩, hsplit, List.dropLast_concat, joinDot_splitDot]

theorem determine_parent_dotless {s : List Char} (hd : '.' ∉ s) (hs : ' ' ∉ s) :
    determine_parent_code s =
      if s.length ≤ 4 then none else some (s.take 4) := by
  have hclean : removeSpaces s = s := removeSpaces_eq_self hs
  have hdots : removeDots s = s := removeDots_eq_self hd
  unfold determine_parent_code
  rw [hclean, if_neg (by exact fun h => hd h.1), hdots]

theorem parentIter_none (n : Nat) : parentIter n none = none := by
  induction n with
  | zero => rfl
  | succ n ih => simpa [parentIter] using ih

theorem parentIter_succ_out (n : Nat) (x : Option (List Char)) :
    parentIter (n + 1) x = (parentIter n x).bind determine_parent_code := by
  induction n generalizing x with
  | zero => rfl
  | succ n ih =>
    calc parentIter (n + 2) x
        = parentIter (n + 1) (x.bind determine_parent_code) := rfl
      _ = (parentIter n (x.bind determine_parent_code)).bind determine_parent_code := ih _
      _ = (parentIter (n + 1) x).bind determine_parent_code := rfl

theorem parentIter_none_mono {n m : Nat} {x : Option (List Char)}
    (h : parentIter n x = none) (hnm : n ≤ m) : parentIter m x = none := by
  obtain ⟨k, rfl⟩ := Nat.exists_eq_add_of_le hnm
  induction k with
  | zero => simpa using h
  | succ k ih =>
    rw [← Nat.add_assoc, parentIter_succ_out, ih (Nat.le_add_right n k), Option.none_bind]

theorem flatGroups_append (xs ys : List (Char × Char)) :
    flatGroups (xs ++ ys) = flatGroups xs ++ flatGroups ys := by
  induction xs with
  | nil => simp [flatGroups]
  | cons g xs ih =>
    obtain ⟨a, b⟩ := g
    simp [flatGroups, ih]

theorem mem_flatGroups {c : Char} {gs : List (Char × Char)}
    (h : c ∈ flatGroups gs) : c = '.' ∨ ∃ p ∈ gs, c = p.1 ∨ c = p.2 := by
  induction gs with
  | nil => simp [flatGroups] at h
  | cons g gs ih =>
    obtain ⟨a, b⟩ := g
    simp only [flatGroups, List.mem_cons] at h
    rcases h with h | h | h | h
    · exact Or.inl h
    · exact Or.inr ⟨(a, b), by simp, Or.inl h⟩
    · exact Or.inr ⟨(a, b), by simp, Or.inr h⟩
    · rcases ih h with h1 | ⟨p, hp, h2⟩
      · exact Or.inl h1
      · exact Or.inr ⟨p, by simp [hp], h2⟩

theorem chase_aux (gs : List (Char × Char)) :
    ∀ (A B : List Char) (d1 d2 d3 d4 : Char),
      (∀ c ∈ A, c ≠ ' ' ∧ c ≠ '.') →
      (∀ c ∈ B, c ≠ ' ' ∧ c ≠ '.') →
      isDigitChar d1 = true → isDigitChar d2 = true →
      isDigitChar d3 = true → isDigitChar d4 = true →
      (∀ p ∈ gs, isDigitChar p.1 = true ∧ isDigitChar p.2 = true) →
      parentIter (gs.length + 2)
        (some (A ++ d1 :: d2 :: d3 :: d4 :: (flatGroups gs ++ B))) = none := by
  induction gs using List.reverseRecOn with
  | nil =>
    intro A B d1 d2 d3 d4 hA hB h1 h2 h3 h4 _
    have hnodot : '.' ∉ A ++ d1 :: d2 :: d3 :: d4 :: B := by
      intro hmem
      rcases List.mem_append.mp hmem with h | h
      · exact (hA _ h).2 rfl
      · simp only [List.mem_cons] at h
        rcases h with h | h | h | h | h
        · exact isDigitChar_ne_dot h1 h.symm
        · exact isDigitChar_ne_dot h2 h.symm
        · exact isDigitChar_ne_dot h3 h.symm
        · exact isDigitChar_ne_dot h4 h.symm
        · exact (hB _ h).2 rfl
    have hnosp : ' ' ∉ A ++ d1 :: d2 :: d3 :: d4 :: B := by
      intro hmem
      rcases List.mem_append.mp hmem with h | h
      · exact (hA _ h).1 rfl
      · simp only [List.mem_cons] at h
        rcases h with h | h | h | h | h
        · exact isDigitChar_ne_space h1 h.symm
        · exact isDigitChar_ne_space h2 h.symm
        · exact isDigitChar_ne_space h3 h.symm
        · exact isDigitChar_ne_space h4 h.symm
        · exact (hB _ h).1 rfl
    have happ := determine_parent_dotless hnodot hnosp
    by_cases hA0 : A = []
    · by_cases hB0 : B = []
      · subst hA0; subst hB0
        have hp : determine_parent_code [d1, d2, d3, d4] = none := by
          simp only [List.nil_append] at happ
          rw [happ]
          simp
        simp [flatGroups, parentIter, hp]
      · have hlen : ¬ ((A ++ d1 :: d2 :: d3 :: d4 :: B).length ≤ 4) := by
          have := List.length_pos.mpr hB0
          simp only [List.length_append, List.length_cons]
          omega
        have hp1 : determine_parent_code (A ++ d1 :: d2 :: d3 :: d4 :: B) =
            some ((A ++ d1 :: d2 :: d3 :: d4 :: B).take 4) := by
          rw [happ, if_neg hlen]
        have hd2 : '.' ∉ (A ++ d1 :: d2 :: d3 :: d4 :: B).take 4 :=
          fun h => hnodot (List.take_subset _ _ h)
        have hs2 : ' ' ∉ (A ++ d1 :: d2 :: d3 :: d4 :: B).take 4 :=
          fun h => hnosp (List.take_subset _ _ h)
        have hp2 : determine_parent_code ((A ++ d1 :: d2 :: d3 :: d4 :: B).take 4) = none := by
          rw [determine_parent_dotless hd2 hs2, if_pos (List.length_take_le 4 _)]
        simp [flatGroups, parentIter, hp1, hp2]
    · have hlen : ¬ ((A ++ d1 :: d2 :: d3 :: d4 :: B).length ≤ 4) := by
        have := List.length_pos.mpr hA0
        simp only [List.length_append, List.length_cons]
        omega
      have hp1 : determine_parent_code (A ++ d1 :: d2 :: d3 :: d4 :: B) =
          some ((A ++ d1 :: d2 :: d3 :: d4 :: B).take 4) := by
        rw [happ, if_neg hlen]
      have hd2 : '.' ∉ (A ++ d1 :: d2 :: d3 :: d4 :: B).take 4 :=
        fun h => hnodot (List.take_subset _ _ h)
      have hs2 : ' ' ∉ (A ++ d1 :: d2 :: d3 :: d4 :: B).take 4 :=
        fun h => hnosp (List.take_subset _ _ h)
      have hp2 : determine_parent_code ((A ++ d1 :: d2 :: d3 :: d4 :: B).take 4) = none := by
        rw [determine_parent_dotless hd2 hs2, if_pos (List.length_take_le 4 _)]
      simp [flatGroups, parentIter, hp1, hp2]
  | append_singleton gs g ih =>
    intro A B d1 d2 d3 d4 hA hB h1 h2 h3 h4 hgs
    obtain ⟨a, b⟩ := g
    have ha : isDigitChar a = true := (hgs (a, b) (by simp)).1
    have hb : isDigitChar b = true := (hgs (a, b) (by simp)).2
    have hgs2 : ∀ p ∈ gs, isDigitChar p.1 = true ∧ isDigitChar p.2 = true :=
      fun p hp => hgs p (by simp [hp])
    have hstate :
        A ++ d1 :: d2 :: d3 :: d4 :: (flatGroups (gs ++ [(a, b)]) ++ B) =
          (A ++ d1 :: d2 :: d3 :: d4 :: flatGroups gs) ++ '.' :: (a :: b :: B) := by
      simp [flatGroups_append, flatGroups]
    have hu : ' ' ∉ A ++ d1 :: d2 :: d3 :: d4 :: flatGroups gs := by
      intro hmem
      rcases List.mem_append.mp hmem with h | h
      · exact (hA _ h).1 rfl
      · simp only [List.mem_cons] at h
        rcases h with h | h | h | h | h
        · exact isDigitChar_ne_space h1 h.symm
        · exact isDigitChar_ne_space h2 h.symm
        · exact isDigitChar_ne_space h3 h.symm
        · exact isDigitChar_ne_space h4 h.symm
        · rcases mem_flatGroups h with h5 | ⟨p, hp, h6⟩
          · exact absurd h5.symm (by decide)
          · rcases h6 with h7 | h7
            · exact isDigitChar_ne_space (hgs2 p hp).1 h7.symm
            · exact isDigitChar_ne_space (hgs2 p hp).2 h7.symm
    have hv : ' ' ∉ a :: b :: B := by
      intro hmem
      simp only [List.mem_cons] at hmem
      rcases hmem with h | h | h
      · exact isDigitChar_ne_space ha h.symm
      · exact isDigitChar_ne_space hb h.symm
      · exact (hB _ h).1 rfl
    have hvd : '.' ∉ a :: b :: B := by
      intro hmem
      simp only [List.mem_cons] at hmem
      rcases hmem with h | h | h
      · exact isDigitChar_ne_dot ha h.symm
      · exact isDigitChar_ne_dot hb h.symm
      · exact (hB _ h).2 rfl
    have hstep := determine_parent_dotted hu hv hvd
    have hrest := ih A [] d1 d2 d3 d4 hA (by simp) h1 h2 h3 h4 hgs2
    rw [hstate]
    have hlen : (gs ++ [(a, b)]).length + 2 = (gs.length + 2) + 1 := by
      simp
    rw [hlen]
    show parentIter (gs.length + 2)
      ((some ((A ++ d1 :: d2 :: d3 :: d4 :: flatGroups gs) ++ '.' :: (a :: b :: B))).bind
        determine_parent_code) = none
    rw [Option.some_bind, hstep]
    simpa using hrest

/-- Termination of the parent chain for every accepted code: five
applications of `determine_parent_code` always reach `none`. -/
theorem parent_chain_bound (s : List Char) (h : validate_hs_code s = true) :
    parentIter 5 (some s) = none := by
  obtain ⟨d1, d2, d3, d4, gs, hbody, ⟨h1, h2, h3, h4⟩, hlen, hdig⟩ :=
    (validate_shape s).mp h
  obtain ⟨SA, SB, hs, hSA, hSB⟩ := strip_decomp s
  have hre : removeSpaces s =
      removeSpaces SA ++ (d1 :: d2 :: d3 :: d4 :: flatGroups gs) ++ removeSpaces SB := by
    conv_lhs => rw [hs]
    rw [show removeSpaces (SA ++ pyStrip s ++ SB) =
          removeSpaces SA ++ removeSpaces (pyStrip s) ++ removeSpaces SB from by
        simp [removeSpaces, List.filter_append]]
    rw [hbody]
  have hA : ∀ c ∈ removeSpaces SA, c ≠ ' ' ∧ c ≠ '.' := by
    intro c hc
    obtain ⟨hmem, hne⟩ := List.mem_filter.mp hc
    refine ⟨by simpa using hne, pyIsSpace_ne_dot (hSA c hmem)⟩
  have hB : ∀ c ∈ removeSpaces SB, c ≠ ' ' ∧ c ≠ '.' := by
    intro c hc
    obtain ⟨hmem, hne⟩ := List.mem_filter.mp hc
    refine ⟨by simpa using hne, pyIsSpace_ne_dot (hSB c hmem)⟩
  have hchase := chase_aux gs (removeSpaces SA) (removeSpaces SB) d1 d2 d3 d4
    hA hB h1 h2 h3 h4 hdig
  have hre2 : removeSpaces s =
      removeSpaces SA ++ d1 :: d2 :: d3 :: d4 :: (flatGroups gs ++ removeSpaces SB) := by
    rw [hre]
    simp
  have hsame : determine_parent_code s = determine_parent_code (removeSpaces s) := by
    unfold determine_parent_code
    rw [removeSpaces_eq_self (l := removeSpaces s) (by
      intro hmem
      exact absurd (List.mem_filter.mp hmem).2 (by simp))]
  have h5 : parentIter 5 (some s) = parentIter 4 (determine_parent_code (removeSpaces s)) := by
    rw [← hsame]
    rfl
  have h6 : parentIter (gs.length + 2) (some (removeSpaces s)) = none := by
    rw [hre2]
    exact hchase
  have h7 : parentIter 5 (some (removeSpaces s)) = none :=
    parentIter_none_mono h6 (by omega)
  rw [h5]
  exact h7

example : parentIter 5 (some "8708.30.10.00".data) = none :=
  parent_chain_bound _ (by decide)
example : parentIter 5 (some "  \t8708.30.10.00\t ".data) = none :=
  parent_chain_bound _ (by decide)

/-! ### Keyword extraction lemmas -/

theorem map_id_of_mem {α : Type} {f : α → α} {l : List α}
    (h : ∀ c ∈ l, f c = c) : l.map f = l := by
  induction l with
  | nil => rfl
  | cons c l ih =>
    rw [List.map_cons, h c (by simp), ih (fun x hx => h x (by simp [hx]))]

theorem isKeptChar_not_space {c : Char} (h : isKeptChar c = true) :
    pyIsSpace c = false := by
  simp only [isKeptChar, Bool.or_eq_true, Bool.and_eq_true, decide_eq_true_eq] at h
  rw [Bool.eq_false_iff]
  intro h2
  simp only [pyIsSpace, Bool.or_eq_true, decide_eq_true_eq] at h2
  omega

theorem isKeptChar_lower_eq {c : Char} (h : isKeptChar c = true) :
    pyLowerChar c = c := by
  simp only [isKeptChar, Bool.or_eq_true, Bool.and_eq_true, decide_eq_true_eq] at h
  rw [pyLowerChar, if_neg]
  simp only [Bool.and_eq_true, decide_eq_true_eq, not_and]
  omega

theorem mem_pySubToSpace {c : Char} {l : List Char} (h : c ∈ pySubToSpace l) :
    isKeptChar c = true ∨ pyIsSpace c = true := by
  obtain ⟨x, _, hx⟩ := List.mem_map.mp h
  by_cases hcond : (isKeptChar x || pyIsSpace x) = true
  · rw [if_pos hcond] at hx
    subst hx
    simpa using hcond
  · rw [if_neg hcond] at hx
    subst hx
    right
    decide

theorem pySubToSpace_eq_self {l : List Char}
    (h : ∀ c ∈ l, isKeptChar c = true ∨ c = ' ') : pySubToSpace l = l := by
  apply map_id_of_mem
  intro c hc
  rcases h c hc with h1 | h1
  · rw [if_pos (by simp [h1])]
  · subst h1
    rw [if_pos (by decide)]

theorem map_lower_eq_self {l : List Char}
    (h : ∀ c ∈ l, isKeptChar c = true ∨ c = ' ') : l.map pyLowerChar = l := by
  apply map_id_of_mem
  intro c hc
  rcases h c hc with h1 | h1
  · exact isKeptChar_lower_eq h1
  · subst h1
    decide

theorem pySplitGo_fuel :
    ∀ (n : Nat) (l : List Char), l.length ≤ n → ∀ (m : Nat), l.length ≤ m →
      pySplitGo n l = pySplitGo m l := by
  intro n
  induction n with
  | zero =>
    intro l hlen m _
    have : l = [] := List.length_eq_zero.mp (Nat.le_zero.mp hlen)
    subst this
    cases m <;> rfl
  | succ n ih =>
    intro l hlen m hm
    cases l with
    | nil => cases m <;> rfl
    | cons c rest =>
      cases m with
      | zero => simp at hm
      | succ m =>
        simp only [List.length_cons] at hlen hm
        have h1 : rest.length ≤ n := by omega
        have h2 : rest.length ≤ m := by omega
        have h3 : (rest.dropWhile (fun x => !pyIsSpace x)).length ≤ n := by
          have := (List.dropWhile_sublist (l := rest)
            (p := fun x => !pyIsSpace x)).length_le
          omega
        have h4 : (rest.dropWhile (fun x => !pyIsSpace x)).length ≤ m := by
          have := (List.dropWhile_sublist (l := rest)
            (p := fun x => !pyIsSpace x)).length_le
          omega
        simp only [pySplitGo]
        rw [ih rest h1 m h2, ih _ h3 m h4]

theorem pySplit_cons_space {c : Char} {l : List Char} (h : pyIsSpace c = true) :
    pySplit (c :: l) = pySplit l := by
  unfold pySplit
  simp only [List.length_cons, pySplitGo, h, if_true]

theorem pySplit_cons_eq {c : Char} (rest : List Char) (hc : pyIsSpace c = false) :
    pySplit (c :: rest) =
      (c :: rest.takeWhile (fun x => !pyIsSpace x)) ::
        pySplit (rest.dropWhile (fun x => !pyIsSpace x)) := by
  unfold pySplit
  simp only [List.length_cons, pySplitGo, hc, Bool.false_eq_true, if_false]
  congr 1
  exact pySplitGo_fuel rest.length _ ((List.dropWhile_sublist _).length_le) _ (Nat.le_refl _)

theorem takeWhile_append_all {p : Char → Bool} {u l : List Char}
    (hu : ∀ c ∈ u, p c = true) :
    (u ++ l).takeWhile p = u ++ l.takeWhile p := by
  induction u with
  | nil => simp
  | cons c u ih =>
    have hc := hu c (by simp)
    simp only [List.cons_append, List.takeWhile_cons, hc, if_true]
    rw [ih (fun x hx => hu x (by simp [hx]))]

theorem dropWhile_append_all {p : Char → Bool} {u l : List Char}
    (hu : ∀ c ∈ u, p c = true) :
    (u ++ l).dropWhile p = l.dropWhile p := by
  induction u with
  | nil => simp
  | cons c u ih =>
    have hc := hu c (by simp)
    simp only [List.cons_append, List.dropWhile_cons, hc, if_true]
    exact ih (fun x hx => hu x (by simp [hx]))

theorem pySplit_word {w l : List Char} (hw : w ≠ [])
    (hwc : ∀ c ∈ w, pyIsSpace c = false)
    (hl : l = [] ∨ ∃ d t, l = d :: t ∧ pyIsSpace d = true) :
    pySplit (w ++ l) = w :: pySplit l := by
  obtain ⟨c, w2, rfl⟩ := List.exists_cons_of_ne_nil hw
  have hq : ∀ x ∈ w2, (fun x => !pyIsSpace x) x = true := by
    intro x hx
    simp [hwc x (by simp [hx])]
  have htl : l.takeWhile (fun x => !pyIsSpace x) = [] := by
    rcases hl with rfl | ⟨d, t, rfl, hd⟩
    · simp
    · simp [List.takeWhile_cons, hd]
  have hdl : l.dropWhile (fun x => !pyIsSpace x) = l := by
    rcases hl with rfl | ⟨d, t, rfl, hd⟩
    · simp
    · simp [List.dropWhile_cons, hd]
  rw [List.cons_append, pySplit_cons_eq (w2 ++ l) (hwc c (by simp)),
    takeWhile_append_all hq, dropWhile_append_all hq, htl, hdl]
  simp

theorem pySplit_joinSpace :
    ∀ (ws : List (List Char)),
      (∀ w ∈ ws, w ≠ [] ∧ ∀ c ∈ w, pyIsSpace c = false) →
      pySplit (joinSpace ws) = ws := by
  intro ws
  induction ws with
  | nil => intro _; rfl
  | cons w ws ih =>
    intro h
    obtain ⟨hw, hwc⟩ := h w (by simp)
    cases ws with
    | nil =>
      show pySplit (joinSpace [w]) = [w]
      have hj : joinSpace [w] = w ++ [] := by simp [joinSpace]
      rw [hj, pySplit_word hw hwc (Or.inl rfl)]
      rfl
    | cons v vs =>
      have hrest := ih (fun x hx => h x (by simp [hx]))
      show pySplit (w ++ ' ' :: joinSpace (v :: vs)) = w :: v :: vs
      rw [pySplit_word hw hwc
        (Or.inr ⟨' ', joinSpace (v :: vs), rfl, by decide⟩)]
      rw [pySplit_cons_space (by decide), hrest]

theorem mem_pySplit_aux (P : Char → Prop) :
    ∀ (n : Nat) (l : List Char), l.length ≤ n → (∀ c ∈ l, P c) →
      ∀ w ∈ pySplit l, w ≠ [] ∧ ∀ c ∈ w, pyIsSpace c = false ∧ P c := by
  intro n
  induction n with
  | zero =>
    intro l hlen _ w hw
    have : l = [] := List.length_eq_zero.mp (Nat.le_zero.mp hlen)
    subst this
    simp [pySplit, pySplitGo] at hw
  | succ n ih =>
    intro l hlen hP w hw
    cases l with
    | nil => simp [pySplit, pySplitGo] at hw
    | cons c rest =>
      by_cases hc : pyIsSpace c = true
      · rw [pySplit_cons_space hc] at hw
        exact ih rest (by simpa using Nat.le_of_succ_le_succ hlen)
          (fun x hx => hP x (by simp [hx])) w hw
      · have hc2 : pyIsSpace c = false := by simpa using hc
        rw [pySplit_cons_eq rest hc2] at hw
        rcases List.mem_cons.mp hw with h1 | h1
        · subst h1
          refine ⟨by simp, fun x hx => ?_⟩
          rcases List.mem_cons.mp hx with h2 | h2
          · subst h2
            exact ⟨hc2, hP x (by simp)⟩
          · have hxr : x ∈ rest := (List.takeWhile_sublist _).subset h2
            have hxq := List.mem_takeWhile_imp h2
            refine ⟨by simpa using hxq, hP x (by simp [hxr])⟩
        · have hsub : (rest.dropWhile (fun x => !pyIsSpace x)).length ≤ n := by
            have h3 := (List.dropWhile_sublist (l := rest)
              (p := fun x => !pyIsSpace x)).length_le
            simp only [List.length_cons] at hlen
            omega
          exact ih _ hsub
            (fun x hx => hP x (by
              simp [(List.dropWhile_sublist _).subset hx]))
            w h1

theorem mem_pySplit {l w : List Char} (P : Char → Prop) (hP : ∀ c ∈ l, P c)
    (hw : w ∈ pySplit l) :
    w ≠ [] ∧ ∀ c ∈ w, pyIsSpace c = false ∧ P c :=
  mem_pySplit_aux P l.length l (Nat.le_refl _) hP w hw

theorem mem_uniqueKeep_complete {x : List Char} :
    ∀ (seen l : List (List Char)), x ∈ l → x ∉ seen → x ∈ uniqueKeep seen l := by
  intro seen l
  induction l generalizing seen with
  | nil => intro h _; simp at h
  | cons w ws ih =>
    intro hx hns
    by_cases hw : w ∈ seen
    · rw [uniqueKeep, if_pos hw]
      rcases List.mem_cons.mp hx with h1 | h1
      · exact absurd (h1 ▸ hw) hns
      · exact ih seen h1 hns
    · rw [uniqueKeep, if_neg hw]
      rcases List.mem_cons.mp hx with h1 | h1
      · exact h1 ▸ List.mem_cons_self _ _
      · by_cases hxw : x = w
        · exact hxw ▸ List.mem_cons_self _ _
        · refine List.mem_cons.mpr (Or.inr (ih (w :: seen) h1 ?_))
          intro hmem
          rcases List.mem_cons.mp hmem with h2 | h2
          · exact hxw h2
          · exact hns h2

theorem isDigitChar_isKept {c : Char} (h : isDigitChar c = true) :
    isKeptChar c = true := by
  simp only [isDigitChar, Bool.and_eq_true, decide_eq_true_eq] at h
  simp only [isKeptChar, Bool.or_eq_true, Bool.and_eq_true, decide_eq_true_eq]
  omega

theorem stopwords_head_not_digit :
    ∀ s ∈ STOPWORDS, isDigitChar (s.headD 'a') = false := by
  decide

theorem digits_not_stopword {w : List Char} (hne : w ≠ [])
    (hdig : ∀ c ∈ w, isDigitChar c = true) : w ∉ STOPWORDS := by
  intro hmem
  obtain ⟨d, rest, rfl⟩ := List.exists_cons_of_ne_nil hne
  have h1 := stopwords_head_not_digit _ hmem
  simp only [List.headD_cons] at h1
  exact absurd (hdig d (by simp)) (by simp [h1])

theorem mem_uniqueKeep {x : List Char} :
    ∀ (seen l : List (List Char)), x ∈ uniqueKeep seen l → x ∈ l := by
  intro seen l
  induction l generalizing seen with
  | nil => intro h; simp [uniqueKeep] at h
  | cons w ws ih =>
    intro h
    rw [uniqueKeep] at h
    split at h
    · exact List.mem_cons.mpr (Or.inr (ih seen h))
    · rcases List.mem_cons.mp h with h1 | h1
      · simp [h1]
      · exact List.mem_cons.mpr (Or.inr (ih (w :: seen) h1))

theorem uniqueKeep_nodup :
    ∀ (l seen : List (List Char)),
      (uniqueKeep seen l).Nodup ∧ ∀ x ∈ uniqueKeep seen l, x ∉ seen := by
  intro l
  induction l with
  | nil => intro seen; simp [uniqueKeep]
  | cons w ws ih =>
    intro seen
    rw [uniqueKeep]
    split
    · exact ih seen
    · obtain ⟨hnd, hns⟩ := ih (w :: seen)
      constructor
      · refine List.nodup_cons.mpr ⟨?_, hnd⟩
        intro hmem
        exact hns w hmem (by simp)
      · intro x hx
        rcases List.mem_cons.mp hx with h1 | h1
        · subst h1
          assumption
        · intro hxs
          exact hns x h1 (by simp [hxs])

theorem uniqueKeep_of_nodup :
    ∀ (l seen : List (List Char)), l.Nodup → (∀ x ∈ l, x ∉ seen) →
      uniqueKeep seen l = l := by
  intro l
  induction l with
  | nil => intro seen _ _; rfl
  | cons w ws ih =>
    intro seen hnd hdisj
    rw [uniqueKeep, if_neg (hdisj w (by simp))]
    congr 1
    apply ih
    · exact (List.nodup_cons.mp hnd).2
    · intro x hx
      intro hmem
      rcases List.mem_cons.mp hmem with h1 | h1
      · exact (List.nodup_cons.mp hnd).1 (h1 ▸ hx)
      · exact hdisj x (by simp [hx]) h1

/-- Every keyword produced by `extract_keywords` is a non-empty string of
lowercase alphanumerics, has length at least 3, and is not a stopword. -/
theorem extract_keywords_mem {t : PyText} {m : Nat} {w : List Char}
    (h : w ∈ extract_keywords t m) :
    w ≠ [] ∧ (∀ c ∈ w, isKeptChar c = true) ∧ 3 ≤ w.length ∧ w ∉ STOPWORDS := by
  cases t with
  | pnone => simp [extract_keywords] at h
  | pnan => simp [extract_keywords] at h
  | pstr s =>
    rw [extract_keywords] at h
    split at h
    · simp at h
    · rw [extractBody] at h
      have h1 : w ∈ uniqueKeep []
          ((pySplit (pySubToSpace (s.map pyLowerChar))).filter keepWord) :=
        List.take_subset _ _ h
      have h2 : w ∈ (pySplit (pySubToSpace (s.map pyLowerChar))).filter keepWord :=
        mem_uniqueKeep _ _ h1
      have h3 := List.mem_filter.mp h2
      have h4 : keepWord w = true := h3.2
      simp only [keepWord, Bool.and_eq_true, decide_eq_true_eq] at h4
      have h5 := mem_pySplit
        (fun c => isKeptChar c = true ∨ pyIsSpace c = true)
        (fun c hc => mem_pySubToSpace hc) h3.1
      refine ⟨h5.1, ?_, h4.2, h4.1⟩
      intro c hc
      rcases (h5.2 c hc).2 with h6 | h6
      · exact h6
      · exact absurd h6 (by simp [(h5.2 c hc).1])

theorem extract_keywords_nodup (t : PyText) (m : Nat) :
    (extract_keywords t m).Nodup := by
  cases t with
  | pnone => simp [extract_keywords]
  | pnan => simp [extract_keywords]
  | pstr s =>
    rw [extract_keywords]
    split
    · simp
    · exact (List.take_sublist _ _).nodup (uniqueKeep_nodup _ _).1

theorem extract_keywords_length_le (t : PyText) (m : Nat) :
    (extract_keywords t m).length ≤ m := by
  cases t with
  | pnone => simp [extract_keywords]
  | pnan => simp [extract_keywords]
  | pstr s =>
    rw [extract_keywords]
    split
    · simp
    · exact List.length_take_le _ _

theorem mem_joinSpace {c : Char} :
    ∀ (ws : List (List Char)), c ∈ joinSpace ws →
      (∃ w ∈ ws, c ∈ w) ∨ c = ' ' := by
  intro ws
  induction ws with
  | nil => intro h; simp [joinSpace] at h
  | cons w vs ih =>
    intro h
    cases vs with
    | nil =>
      simp only [joinSpace] at h
      exact Or.inl ⟨w, by simp, h⟩
    | cons v vs2 =>
      simp only [joinSpace] at h
      rcases List.mem_append.mp h with h1 | h1
      · exact Or.inl ⟨w, by simp, h1⟩
      · rcases List.mem_cons.mp h1 with h2 | h2
        · exact Or.inr h2
        · rcases ih h2 with ⟨x, hx1, hx2⟩ | h3
          · exact Or.inl ⟨x, by simp [hx1], hx2⟩
          · exact Or.inr h3

theorem joinSpace_ne_nil {w : List Char} {ws : List (List Char)} (hw : w ≠ []) :
    joinSpace (w :: ws) ≠ [] := by
  cases ws with
  | nil => simpa [joinSpace] using hw
  | cons v vs => simp [joinSpace]

/-- Idempotence core: re-extracting from the space-joined output of the
extractor reproduces the output exactly. -/
theorem extract_keywords_idem (t : PyText) (m : Nat) :
    extract_keywords (.pstr (joinSpace (extract_keywords t m))) m =
      extract_keywords t m := by
  by_cases hout : extract_keywords t m = []
  · rw [hout]
    rfl
  · obtain ⟨w0, ws0, hcons⟩ := List.exists_cons_of_ne_nil hout
    have hmemprops := fun w hw => extract_keywords_mem (t := t) (m := m) (w := w) hw
    have hw0 : w0 ≠ [] := (hmemprops w0 (by rw [hcons]; simp)).1
    have hjoin_ne : joinSpace (extract_keywords t m) ≠ [] := by
      rw [hcons]
      exact joinSpace_ne_nil hw0
    have hchars : ∀ c ∈ joinSpace (extract_keywords t m),
        isKeptChar c = true ∨ c = ' ' := by
      intro c hc
      rcases mem_joinSpace _ hc with ⟨w, hw1, hw2⟩ | h1
      · exact Or.inl ((hmemprops w hw1).2.1 c hw2)
      · exact Or.inr h1
    rw [extract_keywords, if_neg (by simpa using hjoin_ne)]
    rw [extractBody]
    rw [map_lower_eq_self hchars, pySubToSpace_eq_self hchars]
    rw [pySplit_joinSpace _ (fun w hw => ⟨(hmemprops w hw).1,
      fun c hc => isKeptChar_not_space ((hmemprops w hw).2.1 c hc)⟩)]
    rw [List.filter_eq_self.mpr (fun w hw => by
      have hp := hmemprops w hw
      simp only [keepWord, Bool.and_eq_true, decide_eq_true_eq]
      exact ⟨hp.2.2.2, hp.2.2.1⟩)]
    rw [uniqueKeep_of_nodup _ [] (extract_keywords_nodup t m) (by simp)]
    exact List.take_of_length_le (extract_keywords_length_le t m)

/-! ### Parser lemmas -/

theorem parse_clean_no_dot (code : List Char) :
    '.' ∉ removeSpaces (removeDots code) := by
  intro h
  have h1 := List.mem_filter.mp h
  have h2 := List.mem_filter.mp h1.1
  simp at h2

theorem parse_chapter (code : List Char) :
    (parse_hs_code code).chapter = (removeSpaces (removeDots code)).take 2 := by
  by_cases h : 2 ≤ (removeSpaces (removeDots code)).length
  · simp [parse_hs_code, h]
  · simp only [parse_hs_code, h, if_false]
    rw [List.take_of_length_le (by omega)]

theorem parse_heading (code : List Char) :
    (parse_hs_code code).heading = (removeSpaces (removeDots code)).take 4 := by
  by_cases h : 4 ≤ (removeSpaces (removeDots code)).length
  · simp [parse_hs_code, h]
  · simp only [parse_hs_code, h, if_false]
    rw [List.take_of_length_le (by omega)]

theorem parse_heading_length (code : List Char) :
    (parse_hs_code code).heading.length ≤ 4 := by
  rw [parse_heading]
  exact List.length_take_le _ _

theorem parse_subheading_long (code : List Char)
    (h : 6 ≤ (removeSpaces (removeDots code)).length) :
    (parse_hs_code code).subheading =
      ((removeSpaces (removeDots code)).take 6).take 4 ++
        '.' :: (((removeSpaces (removeDots code)).take 6).drop 4).take 2 := by
  have hlen : ((removeSpaces (removeDots code)).take 6).length = 6 := by
    rw [List.length_take]
    omega
  simp [parse_hs_code, h, hlen]

theorem parse_subheading_short (code : List Char)
    (h : ¬ 6 ≤ (removeSpaces (removeDots code)).length) :
    (parse_hs_code code).subheading = (parse_hs_code code).heading := by
  have hhl := parse_heading_length code
  simp only [parse_hs_code, h, if_false]
  have h2 : ¬ 6 ≤ (if 4 ≤ (removeSpaces (removeDots code)).length
      then (removeSpaces (removeDots code)).take 4
      else removeSpaces (removeDots code)).length := by
    split
    · rw [List.length_take]
      omega
    · omega
  rw [if_neg h2]

/-! ### Record builder lemmas -/

theorem structure_for_db_spec (rows : List Row) (country_code : List Char) :
    (structure_for_db rows country_code).1 =
      (rows.filter (fun r => validate_hs_code (rowHsCode r))).map
        (fun r => buildRecord r country_code) ∧
    (structure_for_db rows country_code).2 =
      (rows.filter (fun r => !validate_hs_code (rowHsCode r))).length := by
  induction rows with
  | nil => exact ⟨rfl, rfl⟩
  | cons r rest ih =>
    by_cases h : validate_hs_code (rowHsCode r) = true
    · simp only [structure_for_db, h, if_true, List.filter_cons, Bool.not_true]
      simp [h, ih.1, ih.2]
    · have h2 : validate_hs_code (rowHsCode r) = false := by simpa using h
      simp only [structure_for_db, h2, Bool.false_eq_true, if_false, List.filter_cons]
      simp [h2, ih.1, ih.2]

theorem length_filter_add_not {α : Type} (p : α → Bool) (l : List α) :
    (l.filter p).length + (l.filter (fun x => !p x)).length = l.length := by
  induction l with
  | nil => rfl
  | cons x l ih =>
    rw [List.filter_cons, List.filter_cons]
    by_cases h : p x = true
    · simp only [h, if_true, Bool.not_true, Bool.false_eq_true, if_false, List.length_cons]
      omega
    · have h2 : p x = false := by simpa using h
      simp only [h2, Bool.false_eq_true, if_false, Bool.not_false, if_true, List.length_cons]
      omega

theorem structure_for_db_total (rows : List Row) (country_code : List Char) :
    (structure_for_db rows country_code).1.length +
      (structure_for_db rows country_code).2 = rows.length := by
  obtain ⟨h1, h2⟩ := structure_for_db_spec rows country_code
  rw [h1, h2, List.length_map]
  exact length_filter_add_not (fun r => validate_hs_code (rowHsCode r)) rows

/-! ### Claims -/

/-- C1, counterexample: the permissive validation rule of the claim is
false on the code.  The undotted six-digit run "870830" satisfies the
claimed acceptance condition (non-empty, all digits, length in 4..10
after stripping whitespace and dots) yet the validator rejects it, and
likewise "87.0830" with a non-canonical dot is rejected. -/
theorem claim1_counterexample :
    validate_hs_code "870830".data = false ∧
    removeDots (pyStrip "870830".data) ≠ [] ∧
    (removeDots (pyStrip "870830".data)).all isDigitChar = true ∧
    4 ≤ (removeDots (pyStrip "870830".data)).length ∧
    (removeDots (pyStrip "870830".data)).length ≤ 10 ∧
    validate_hs_code "87.0830".data = false := by
  decide

/-- C1, amended: the validator accepts exactly the strings that, after
stripping surrounding whitespace and removing internal spaces, consist of
four decimal digits followed by zero to three groups of a dot and two
decimal digits; dot placement is checked, so undotted runs of more than
four digits are rejected. -/
theorem claim1_amended (s : List Char) :
    validate_hs_code s = true ↔
      ∃ d1 d2 d3 d4 gs,
        removeSpaces (pyStrip s) = d1 :: d2 :: d3 :: d4 :: flatGroups gs ∧
        (isDigitChar d1 = true ∧ isDigitChar d2 = true ∧
         isDigitChar d3 = true ∧ isDigitChar d4 = true) ∧
        gs.length ≤ 3 ∧
        ∀ p ∈ gs, isDigitChar p.1 = true ∧ isDigitChar p.2 = true :=
  validate_shape s

/-- C1, witness: the amended characterization at the accepted code
"8708.30". -/
theorem claim1_witness :
    ∃ d1 d2 d3 d4 gs,
      removeSpaces (pyStrip "8708.30".data) = d1 :: d2 :: d3 :: d4 :: flatGroups gs ∧
      (isDigitChar d1 = true ∧ isDigitChar d2 = true ∧
       isDigitChar d3 = true ∧ isDigitChar d4 = true) ∧
      gs.length ≤ 3 ∧
      ∀ p ∈ gs, isDigitChar p.1 = true ∧ isDigitChar p.2 = true :=
  (claim1_amended "8708.30".data).mp (by decide)

/-- C2, counterexample: the extractor does not drop purely numeric
tokens.  On the text "123" the numeric token "123" survives every
filter. -/
theorem claim2_counterexample :
    ¬ ∀ (t : PyText) (m : Nat), ∀ w ∈ extract_keywords t m,
        ¬ (w ≠ [] ∧ w.all isDigitChar = true) := by
  intro h
  exact h (.pstr "123".data) 15 "123".data (by decide) (by decide)

/-- C2, amended: the extractor drops exactly the tokens shorter than 3
characters or belonging to the stopword set, and purely numeric tokens
are not filtered.  Universally: (1) the filter predicate of the source
holds for a token exactly when it has length at least 3 and is not a
stopword — numeric-ness plays no role; (2) every extracted token meets
these two criteria; (3) conversely every token of the split normalized
text meeting the two criteria survives the filter and deduplication
stages, so only the maximum-count truncation can remove it; (4) every
purely numeric text of length at least 3 is extracted verbatim as its
own keyword. -/
theorem claim2_amended :
    (∀ w : List Char, keepWord w = true ↔ (3 ≤ w.length ∧ w ∉ STOPWORDS)) ∧
    (∀ (t : PyText) (m : Nat), ∀ w ∈ extract_keywords t m,
        3 ≤ w.length ∧ w ∉ STOPWORDS) ∧
    (∀ (s w : List Char),
        w ∈ pySplit (pySubToSpace (s.map pyLowerChar)) →
        3 ≤ w.length → w ∉ STOPWORDS →
        w ∈ uniqueKeep []
          ((pySplit (pySubToSpace (s.map pyLowerChar))).filter keepWord)) ∧
    (∀ (s : List Char) (m : Nat), s ≠ [] →
        (∀ c ∈ s, isDigitChar c = true) → 3 ≤ s.length → 1 ≤ m →
        extract_keywords (.pstr s) m = [s]) := by
  refine ⟨?_, ?_, ?_, ?_⟩
  · intro w
    simp only [keepWord, Bool.and_eq_true, decide_eq_true_eq]
    exact ⟨fun h => ⟨h.2, h.1⟩, fun h => ⟨h.2, h.1⟩⟩
  · intro t m w hw
    have h := extract_keywords_mem hw
    exact ⟨h.2.2.1, h.2.2.2⟩
  · intro s w hw hlen hstop
    have hk : keepWord w = true := by
      simp only [keepWord, Bool.and_eq_true, decide_eq_true_eq]
      exact ⟨hstop, hlen⟩
    exact mem_uniqueKeep_complete _ _ (List.mem_filter.mpr ⟨hw, hk⟩) (by simp)
  · intro s m hne hdig hlen hm
    have hkept : ∀ c ∈ s, isKeptChar c = true :=
      fun c hc => isDigitChar_isKept (hdig c hc)
    have hlower : s.map pyLowerChar = s :=
      map_id_of_mem (fun c hc => isKeptChar_lower_eq (hkept c hc))
    have hsub : pySubToSpace s = s :=
      pySubToSpace_eq_self (fun c hc => Or.inl (hkept c hc))
    have hsplit : pySplit s = [s] := by
      have h := pySplit_word (w := s) (l := []) hne
        (fun c hc => isKeptChar_not_space (hkept c hc)) (Or.inl rfl)
      simpa using h
    have hstop : s ∉ STOPWORDS := digits_not_stopword hne hdig
    have hkw : keepWord s = true := by
      simp only [keepWord, Bool.and_eq_true, decide_eq_true_eq]
      exact ⟨hstop, hlen⟩
    rw [extract_keywords, if_neg (by simpa using hne), extractBody,
      hlower, hsub, hsplit, List.filter_cons]
    simp only [hkw, if_true, List.filter_nil]
    rw [uniqueKeep, if_neg (by simp)]
    rw [show uniqueKeep [s] ([] : List (List Char)) = [] from rfl]
    exact List.take_of_length_le (by simpa using hm)

/-- C2, witness: the amended guarantees at concrete inputs — the filter
characterization at "123", the output guarantee at the token "car" of
"the car engine", survival of the token "456" of "456 mm", and verbatim
extraction of the numeric text "456789". -/
theorem claim2_witness :
    (keepWord "123".data = true ↔ (3 ≤ "123".data.length ∧ "123".data ∉ STOPWORDS)) ∧
    (3 ≤ "car".data.length ∧ "car".data ∉ STOPWORDS) ∧
    "456".data ∈ uniqueKeep []
      ((pySplit (pySubToSpace ("456 mm".data.map pyLowerChar))).filter keepWord) ∧
    extract_keywords (.pstr "456789".data) 15 = ["456789".data] :=
  ⟨claim2_amended.1 "123".data,
   claim2_amended.2.1 (.pstr "the car engine".data) 15 "car".data (by decide),
   claim2_amended.2.2.1 "456 mm".data "456".data (by decide) (by decide) (by decide),
   claim2_amended.2.2.2 "456789".data 15 (by decide) (by decide) (by decide) (by decide)⟩

/-- C3, counterexample: the builder does not preserve free-form extra
fields.  A valid row carrying the extra column "reasoning" produces a
record with no metadata mapping and no trace of the extra field. -/
theorem claim3_counterexample :
    validate_hs_code (rowHsCode sampleRow3) = true ∧
    sampleRow3.extra ≠ [] ∧
    (buildRecord sampleRow3 "IN".data).lookup "metadata".data = none ∧
    (buildRecord sampleRow3 "IN".data).lookup "reasoning".data = none := by
  decide

/-- C3, amended: the record built for a row consists of exactly the nine
fixed fields in source order, carries no metadata mapping, and is
entirely independent of the free-form extra fields of the row. -/
theorem claim3_amended (row : Row) (cc : List Char) :
    (buildRecord row cc).map Prod.fst =
      ["code".data, "chapter".data, "heading".data, "subheading".data,
       "countryCode".data, "description".data, "keywords".data,
       "commonProducts".data, "parentCode".data] ∧
    (buildRecord row cc).lookup "metadata".data = none ∧
    ∀ extra2 : List (List Char × List Char),
      buildRecord { row with extra := extra2 } cc = buildRecord row cc :=
  ⟨rfl, rfl, fun _ => rfl⟩

/-- C4, counterexample: three applications of the parent resolver do not
suffice.  The accepted ten-digit code "8708.30.10.00" still has the
non-null state "8708" after three applications, and the accepted code
with a leading tab still has a non-null state after four. -/
theorem claim4_counterexample :
    validate_hs_code "8708.30.10.00".data = true ∧
    (∀ k : Nat, k ≤ 3 → parentIter k (some "8708.30.10.00".data) ≠ none) ∧
    validate_hs_code "\t8708.30.10.00".data = true ∧
    parentIter 4 (some "\t8708.30.10.00".data) = some "\t870".data := by
  refine ⟨by decide, ?_, by decide, by decide⟩
  intro k hk
  interval_cases k <;> decide

/-- C4, amended: from any string accepted by the validator, repeated
application of the parent resolver terminates at `none` within at most 5
applications. -/
theorem claim4_amended (s : List Char) (h : validate_hs_code s = true) :
    parentIter 5 (some s) = none :=
  parent_chain_bound s h

/-- C4, witness: the amended bound at the accepted code
"8708.30.10.00". -/
theorem claim4_witness :
    validate_hs_code "8708.30.10.00".data = true ∧
    parentIter 5 (some "8708.30.10.00".data) = none :=
  ⟨by decide, claim4_amended "8708.30.10.00".data (by decide)⟩

/-- C5: the parent resolver removes the last dot-delimited segment of a
dotted code, returns `none` for a dotless code of at most four digits,
and returns the first four digits, undotted, for a longer dotless code;
with the three concrete equations of the specification. -/
theorem claim5_parent_resolver :
    (∀ u v : List Char, ' ' ∉ u → ' ' ∉ v → '.' ∉ v →
        determine_parent_code (u ++ '.' :: v) = some u) ∧
    (∀ s : List Char, (∀ c ∈ s, isDigitChar c = true) → s.length ≤ 4 →
        determine_parent_code s = none) ∧
    (∀ s : List Char, (∀ c ∈ s, isDigitChar c = true) → 4 < s.length →
        determine_parent_code s = some (s.take 4)) ∧
    determine_parent_code "8708.30.10".data = some "8708.30".data ∧
    determine_parent_code "8708.30".data = some "8708".data ∧
    determine_parent_code "8708".data = none := by
  refine ⟨?_, ?_, ?_, by decide, by decide, by decide⟩
  · intro u v hu hv hvd
    exact determine_parent_dotted hu hv hvd
  · intro s hdig hlen
    rw [determine_parent_dotless
      (fun hmem => isDigitChar_ne_dot (hdig _ hmem) rfl)
      (fun hmem => isDigitChar_ne_space (hdig _ hmem) rfl), if_pos hlen]
  · intro s hdig hlen
    rw [determine_parent_dotless
      (fun hmem => isDigitChar_ne_dot (hdig _ hmem) rfl)
      (fun hmem => isDigitChar_ne_space (hdig _ hmem) rfl), if_neg (by omega)]

/-- C5, witness: the three branch rules at concrete codes. -/
theorem claim5_witness :
    determine_parent_code ("8708.30".data ++ '.' :: "10".data) = some "8708.30".data ∧
    determine_parent_code "8708".data = none ∧
    determine_parent_code "870830".data = some ("870830".data.take 4) :=
  ⟨claim5_parent_resolver.1 "8708.30".data "10".data (by decide) (by decide) (by decide),
   claim5_parent_resolver.2.1 "8708".data (by decide) (by decide),
   claim5_parent_resolver.2.2.1 "870830".data (by decide) (by decide)⟩

/-- C6: the builder emits exactly one record per row whose code passes
validation, in input order, counts every invalid row once in the skipped
counter, and the record count plus the skipped count equals the row
count. -/
theorem claim6_counts (rows : List Row) (cc : List Char) :
    (structure_for_db rows cc).1 =
      (rows.filter (fun r => validate_hs_code (rowHsCode r))).map
        (fun r => buildRecord r cc) ∧
    (structure_for_db rows cc).2 =
      (rows.filter (fun r => !validate_hs_code (rowHsCode r))).length ∧
    (structure_for_db rows cc).1.length + (structure_for_db rows cc).2 =
      rows.length :=
  ⟨(structure_for_db_spec rows cc).1, (structure_for_db_spec rows cc).2,
   structure_for_db_total rows cc⟩

/-- C7: the keyword extractor is idempotent on its own space-joined
output, for every input text and every maximum count. -/
theorem claim7_idempotent (t : PyText) (m : Nat) :
    extract_keywords (.pstr (joinSpace (extract_keywords t m))) m =
      extract_keywords t m :=
  extract_keywords_idem t m

/-- C8: a `None`, NaN, or empty-string input to the keyword extractor
yields the empty sequence. -/
theorem claim8_empty_inputs (m : Nat) :
    extract_keywords .pnone m = [] ∧
    extract_keywords .pnan m = [] ∧
    extract_keywords (.pstr "".data) m = [] :=
  ⟨rfl, rfl, rfl⟩

/-- C9: for every input string, the parsed chapter is a prefix of the
parsed heading, and the parsed heading is a prefix of the dot-free form
of the parsed subheading. -/
theorem claim9_parse_invariant (code : List Char) :
    (∃ u, (parse_hs_code code).chapter ++ u = (parse_hs_code code).heading) ∧
    (∃ v, (parse_hs_code code).heading ++ v =
      removeDots ((parse_hs_code code).subheading)) := by
  constructor
  · refine ⟨((removeSpaces (removeDots code)).take 4).drop 2, ?_⟩
    rw [parse_chapter, parse_heading]
    conv_lhs =>
      rw [show (removeSpaces (removeDots code)).take 2 =
        ((removeSpaces (removeDots code)).take 4).take 2 from by
          rw [List.take_take]
          norm_num]
    exact List.take_append_drop 2 _
  · by_cases h : 6 ≤ (removeSpaces (removeDots code)).length
    · refine ⟨(((removeSpaces (removeDots code)).take 6).drop 4).take 2, ?_⟩
      rw [parse_heading, parse_subheading_long code h]
      have hA : '.' ∉ ((removeSpaces (removeDots code)).take 6).take 4 :=
        fun hm => parse_clean_no_dot code
          (List.take_subset _ _ (List.take_subset _ _ hm))
      have hB : '.' ∉ (((removeSpaces (removeDots code)).take 6).drop 4).take 2 :=
        fun hm => parse_clean_no_dot code
          (List.take_subset _ _ (List.drop_subset _ _ (List.take_subset _ _ hm)))
      rw [show removeDots (((removeSpaces (removeDots code)).take 6).take 4 ++
            '.' :: (((removeSpaces (removeDots code)).take 6).drop 4).take 2) =
          ((removeSpaces (removeDots code)).take 6).take 4 ++
            (((removeSpaces (removeDots code)).take 6).drop 4).take 2 from by
        rw [removeDots, List.filter_append, List.filter_cons]
        simp only [ne_eq, not_true_eq_false, decide_False, Bool.false_eq_true, if_false]
        rw [← removeDots, ← removeDots, removeDots_eq_self hA, removeDots_eq_self hB]]
      rw [List.take_take]
      norm_num
    · refine ⟨[], ?_⟩
      rw [parse_subheading_short code h]
      have hH : '.' ∉ (parse_hs_code code).heading := by
        rw [parse_heading]
        exact fun hm => parse_clean_no_dot code (List.take_subset _ _ hm)
      rw [removeDots_eq_self hH, List.append_nil]

/-- C10: every accepted code has, after whitespace removal, the shape of
four digits followed by zero to three dot-digit-digit groups, and its
digit count is 4, 6, 8 or 10. -/
theorem claim10_shape (s : List Char) (h : validate_hs_code s = true) :
    (∃ d1 d2 d3 d4 gs,
      removeSpaces (pyStrip s) = d1 :: d2 :: d3 :: d4 :: flatGroups gs ∧
      (isDigitChar d1 = true ∧ isDigitChar d2 = true ∧
       isDigitChar d3 = true ∧ isDigitChar d4 = true) ∧
      gs.length ≤ 3 ∧
      (∀ p ∈ gs, isDigitChar p.1 = true ∧ isDigitChar p.2 = true) ∧
      (removeDots (removeSpaces (pyStrip s))).length = 4 + 2 * gs.length) ∧
    ((removeDots (removeSpaces (pyStrip s))).length = 4 ∨
     (removeDots (removeSpaces (pyStrip s))).length = 6 ∨
     (removeDots (removeSpaces (pyStrip s))).length = 8 ∨
     (removeDots (removeSpaces (pyStrip s))).length = 10) := by
  obtain ⟨d1, d2, d3, d4, gs, heq, hd, hlen, hdig⟩ := (validate_shape s).mp h
  have hcount : (removeDots (removeSpaces (pyStrip s))).length = 4 + 2 * gs.length := by
    rw [heq]
    rw [show removeDots (d1 :: d2 :: d3 :: d4 :: flatGroups gs) =
        d1 :: d2 :: d3 :: d4 :: removeDots (flatGroups gs) from by
      simp [removeDots, List.filter_cons, isDigitChar_ne_dot hd.1,
        isDigitChar_ne_dot hd.2.1, isDigitChar_ne_dot hd.2.2.1,
        isDigitChar_ne_dot hd.2.2.2]]
    rw [List.length_cons, List.length_cons, List.length_cons, List.length_cons,
      length_removeDots_flatGroups gs hdig]
    omega
  refine ⟨⟨d1, d2, d3, d4, gs, heq, hd, hlen, hdig, hcount⟩, ?_⟩
  rw [hcount]
  omega

/-- C10, witness: the shape and digit count at the accepted code
"8708.30.10". -/
theorem claim10_witness :
    (∃ d1 d2 d3 d4 gs,
      removeSpaces (pyStrip "8708.30.10".data) =
        d1 :: d2 :: d3 :: d4 :: flatGroups gs ∧
      (isDigitChar d1 = true ∧ isDigitChar d2 = true ∧
       isDigitChar d3 = true ∧ isDigitChar d4 = true) ∧
      gs.length ≤ 3 ∧
      (∀ p ∈ gs, isDigitChar p.1 = true ∧ isDigitChar p.2 = true) ∧
      (removeDots (removeSpaces (pyStrip "8708.30.10".data))).length =
        4 + 2 * gs.length) ∧
    ((removeDots (removeSpaces (pyStrip "8708.30.10".data))).length = 4 ∨
     (removeDots (removeSpaces (pyStrip "8708.30.10".data))).length = 6 ∨
     (removeDots (removeSpaces (pyStrip "8708.30.10".data))).length = 8 ∨
     (removeDots (removeSpaces (pyStrip "8708.30.10".data))).length = 10) :=
  claim10_shape "8708.30.10".data (by decide)

end HsScraper
